import Mathlib

/-!
Verification of the yadbf streaming DBF decoder (src/unnamed/part_002, the
current implementation; src/index.js holds two earlier revisions of the same
module). The embedding models byte buffers as lists of byte values, the
Transform subclass as an explicit state-and-step machine, and exceptions as
Except results. Text decoding (the external iconv collaborator) is modelled
as the identity on code points, exact for the 7-bit data every claim uses;
custom field parsers are modelled as not configured (the default).
-/

/-- Decidable equality of Except results, so concrete runs can be settled by
decide. -/
instance {ε α : Type} [DecidableEq ε] [DecidableEq α] : DecidableEq (Except ε α) := fun a b =>
  match a, b with
  | .error e, .error f =>
    if h : e = f then .isTrue (by rw [h]) else .isFalse (by intro hh; injection hh; contradiction)
  | .error _, .ok _ => .isFalse (fun hh => Except.noConfusion hh)
  | .ok _, .error _ => .isFalse (fun hh => Except.noConfusion hh)
  | .ok a, .ok b =>
    if h : a = b then .isTrue (by rw [h]) else .isFalse (by intro hh; injection hh; contradiction)

namespace Yadbf

/-- A byte buffer (Node Buffer): a list of byte values. -/
abbrev Bytes := List Nat

/-- Buffer.readUInt8(i). Call sites guard the bound exactly where the source
does; an out-of-range read the source can actually reach is modelled as an
explicit error at that call site. -/
def readUInt8 (b : Bytes) (i : Nat) : Nat := b.getD i 0

/-- Buffer.readUInt16LE(i), little endian. -/
def readUInt16LE (b : Bytes) (i : Nat) : Nat := b.getD i 0 + 256 * b.getD (i+1) 0

/-- Two's-complement reinterpretation of a w-bit unsigned value. -/
def toSigned (w v : Nat) : Int := if v < 2 ^ (w - 1) then (v : Int) else (v : Int) - 2 ^ w

/-- Buffer.readInt16LE(i). -/
def readInt16LE (b : Bytes) (i : Nat) : Int := toSigned 16 (readUInt16LE b i)

/-- Buffer.readUInt32LE(i). -/
def readUInt32LE (b : Bytes) (i : Nat) : Nat :=
  b.getD i 0 + 256 * b.getD (i+1) 0 + 65536 * b.getD (i+2) 0 + 16777216 * b.getD (i+3) 0

/-- Buffer.readInt32LE(i). -/
def readInt32LE (b : Bytes) (i : Nat) : Int := toSigned 32 (readUInt32LE b i)

/-- Buffer.slice(0, e) where e may be negative (JS: a negative end counts back
from the length, clamped at 0). -/
def jsSliceTo (b : Bytes) (e : Int) : Bytes :=
  if e < 0 then b.take (b.length - (-e).toNat) else b.take e.toNat

/-- Text decoding of a byte slice: identity on code points (see module doc). -/
def asciiDecode (b : Bytes) : String := String.mk (b.map Char.ofNat)

/-- JS String.prototype.substr(start, len) (on code units; our text is ASCII). -/
def jsSubstr (s : String) (start len : Nat) : String := String.mk ((s.data.drop start).take len)

/-- Days from a civil proleptic-Gregorian date y-m-d (m in 1..12), counted from
1970-01-01 (Howard Hinnant's days_from_civil, as ECMAScript MakeDay computes). -/
def daysFromCivil (y m d : Int) : Int :=
  let y1 := if m ≤ 2 then y - 1 else y
  let era := Int.ediv y1 400
  let yoe := y1 - era * 400
  let mp := Int.emod (m + 9) 12
  let doy := Int.ediv (153 * mp + 2) 5 + d - 1
  let doe := yoe * 365 + Int.ediv yoe 4 - Int.ediv yoe 100 + doy
  era * 146097 + doe - 719468

/-- The civil date (y, m, d) of an epoch day count (inverse of daysFromCivil). -/
def civilFromDays (z : Int) : Int × Int × Int :=
  let z1 := z + 719468
  let era := Int.ediv z1 146097
  let doe := z1 - era * 146097
  let yoe := Int.ediv (doe - Int.ediv doe 1460 + Int.ediv doe 36524 - Int.ediv doe 146096) 365
  let y := yoe + era * 400
  let doy := doe - (365 * yoe + Int.ediv yoe 4 - Int.ediv yoe 100)
  let mp := Int.ediv (5 * doy + 2) 153
  let d := doy - Int.ediv (153 * mp + 2) 5 + 1
  let m := if mp < 10 then mp + 3 else mp - 9
  (if m ≤ 2 then y + 1 else y, m, d)

/-- A JS Date value at day resolution: every Date this program constructs is a
midnight, so a valid Date is its epoch day count; an Invalid Date carries no
number. The model is timezone-free (UTC). -/
structure JSDate where
  valid : Bool
  epochDays : Int
deriving DecidableEq

/-- The numeric Date constructor new Date(year, monthIndex, day): years 0..99
map to 1900+year, the zero-based month index rolls over into years, and the day
argument offsets from the first of that month (ECMAScript MakeDay). -/
def jsMakeDate (y mIdx d : Int) : JSDate :=
  let yr := if 0 ≤ y ∧ y ≤ 99 then y + 1900 else y
  let ym := yr * 12 + mIdx
  ⟨true, daysFromCivil (Int.ediv ym 12) (Int.emod ym 12 + 1) 1 + (d - 1)⟩

/-- Numeric value of a digit string (most significant first). -/
def digitsToNat (l : List Char) : Nat := l.foldl (fun a c => 10 * a + (c.toNat - 48)) 0

/-- new Date(string) for the ECMAScript date-only ISO form YYYY-MM-DD (UTC):
the month must read 01..12 and the day 01..31, and the day then offsets from
the first of the month (MakeDay, so day overflow rolls into the next month).
Any other string is modelled as an Invalid Date: the non-ISO fallback parse is
implementation-defined and unused by this repository. -/
def jsDateOfString (s : String) : JSDate :=
  match s.data with
  | [y1, y2, y3, y4, h1, m1, m2, h2, d1, d2] =>
    if ([y1, y2, y3, y4, m1, m2, d1, d2].all Char.isDigit) ∧ h1 = '-' ∧ h2 = '-' then
      let mm : Int := digitsToNat [m1, m2]
      let dd : Int := digitsToNat [d1, d2]
      if 1 ≤ mm ∧ mm ≤ 12 ∧ 1 ≤ dd ∧ dd ≤ 31 then
        ⟨true, daysFromCivil (digitsToNat [y1, y2, y3, y4]) mm 1 + (dd - 1)⟩
      else ⟨false, 0⟩
    else ⟨false, 0⟩
  | _ => ⟨false, 0⟩

/-- getUTCFullYear of a JSDate under this model. -/
def JSDate.year (d : JSDate) : Int := (civilFromDays d.epochDays).1

/-- The one-based calendar month of a JSDate (getUTCMonth would be this minus one). -/
def JSDate.month (d : JSDate) : Int := (civilFromDays d.epochDays).2.1

/-- getUTCDate (day of month) of a JSDate under this model. -/
def JSDate.day (d : JSDate) : Int := (civilFromDays d.epochDays).2.2

/-- Whitespace parseFloat skips in front (the common StrWhiteSpace characters). -/
def isJsSpace (c : Char) : Bool := c = ' ' || c = '\t' || c = '\n' || c = '\r' || c = Char.ofNat 11 || c = Char.ofNat 12

/-- Longest leading run of decimal digits, and the rest. -/
def spanDigits (l : List Char) : List Char × List Char := (l.takeWhile Char.isDigit, l.dropWhile Char.isDigit)

/-- The decimal literal parseFloat consumes from the (whitespace-stripped) text:
optional sign, then Infinity, or digits with an optional fraction, with an
optional exponent; none when no literal starts the text (NaN). -/
def parseFloatCore (l : List Char) : Option (List Char) :=
  let signSplit : List Char × List Char :=
    match l with
    | c :: rest => if c = '+' ∨ c = '-' then ([c], rest) else ([], l)
    | [] => ([], [])
  let sign := signSplit.1
  let l1 := signSplit.2
  if l1.take 8 = "Infinity".data then some (sign ++ "Infinity".data)
  else
    let ds1 := l1.takeWhile Char.isDigit
    let l2 := l1.dropWhile Char.isDigit
    let dotSplit : List Char × List Char :=
      match l2 with
      | '.' :: rest => ('.' :: rest.takeWhile Char.isDigit, rest.dropWhile Char.isDigit)
      | _ => ([], l2)
    let dotPart := dotSplit.1
    let l3 := dotSplit.2
    if ds1 = [] ∧ dotPart.filter Char.isDigit = [] then none
    else
      let ex : List Char :=
        match l3 with
        | e :: rest =>
          if e = 'e' ∨ e = 'E' then
            let esSplit : List Char × List Char :=
              match rest with
              | c :: r => if c = '+' ∨ c = '-' then ([c], r) else ([], rest)
              | [] => ([], [])
            let eds := esSplit.2.takeWhile Char.isDigit
            if eds = [] then [] else e :: (esSplit.1 ++ eds)
          else []
        | [] => []
      some (sign ++ ds1 ++ dotPart ++ ex)

/-- parseFloat(value), abstracted to the literal it consumes (equal inputs give
equal results, and equal literals denote equal IEEE numbers; no claim
constrains the numeric value itself). none is NaN. -/
def parseFloatLit (s : String) : Option String :=
  (parseFloatCore (s.data.dropWhile isJsSpace)).map String.mk

/-- A decoded field value. num carries the literal parseFloat consumed (none is
NaN); the undefined constructor is the JS undefined value, which the L handler returns for the
intentionally-absent cases. -/
inductive Value where
  | str (s : String)
  | date (d : JSDate)
  | bool (b : Bool)
  | num (lit : Option String)
  | undefined
deriving DecidableEq

/-- The options.quirks leniency flags, all off by default. -/
structure Quirks where
  typeL_allowUnknownValues : Bool := false
  typeM_allowLeftSpacePadding : Bool := false
  ignoreUnknownEncryptionByte : Bool := false
  allowFieldLength255 : Bool := false
deriving DecidableEq

/-- The truthyValues set of the source. -/
def truthyValues : List String := ["Y", "y", "T", "t"]

/-- The falseyValues set of the source. -/
def falseyValues : List String := ["N", "n", "F", "f"]

/-- typeHandlers.D: build "YYYY-MM-DD" from the three substrings of the field
text and hand it to the Date string constructor, so the month digits are used
verbatim (one-based), with no subtraction. -/
def handleD (value : String) : Value :=
  .date (jsDateOfString (jsSubstr value 0 4 ++ "-" ++ jsSubstr value 4 2 ++ "-" ++ jsSubstr value 6 2))

/-- typeHandlers.L: truthy and falsey sets, then the undefined cases. -/
def handleL (q : Quirks) (value : String) : Except String Value :=
  if value ∈ truthyValues then .ok (.bool true)
  else if value ∈ falseyValues then .ok (.bool false)
  else if value ≠ "?" ∧ value ≠ " " ∧ ¬ q.typeL_allowUnknownValues then
    .error ("Invalid L-type field value: " ++ value)
  else .ok .undefined

/-- A NUL byte or a space, the class the C handler strips from the tail. -/
def isNulOrSpace (c : Char) : Bool := c = Char.ofNat 0 || c = ' '

/-- typeHandlers.C: strip the trailing run of NUL and space characters. -/
def handleC (value : String) : Value :=
  .str (String.mk ((value.data.reverse.dropWhile isNulOrSpace).reverse))

/-- The anchored validMTypeValueRegex: exactly 10 digits or exactly 10 spaces. -/
def validMTypeValue (s : String) : Bool :=
  (s.data.length == 10 && s.data.all Char.isDigit) || (s.data.length == 10 && s.data.all (· = ' '))

/-- The anchored validMTypeValuePaddedRegex: up to 10 leading spaces, then up to
10 digits, and nothing else. -/
def validMTypeValuePadded (s : String) : Bool :=
  let t := s.data.dropWhile (· = ' ')
  decide (s.data.length - t.length ≤ 10) && decide (t.length ≤ 10) && t.all Char.isDigit

/-- typeHandlers.M: test the applicable regex, return the raw text verbatim. -/
def handleM (q : Quirks) (value : String) : Except String Value :=
  if (if q.typeM_allowLeftSpacePadding then validMTypeValuePadded value else validMTypeValue value)
  then .ok (.str value)
  else .error ("Invalid M-type field value: " ++ "'" ++ value ++ "'")

/-- typeHandlers lookup and call, keyed by the one-character type tag; a tag
outside the six supported letters is not a function (TypeError). -/
def applyTypeHandler (q : Quirks) (t : Char) (value : String) : Except String Value :=
  if t = 'D' then .ok (handleD value)
  else if t = 'L' then handleL q value
  else if t = 'F' then .ok (.num (parseFloatLit value))
  else if t = 'N' then .ok (.num (parseFloatLit value))
  else if t = 'C' then .ok (handleC value)
  else if t = 'M' then handleM q value
  else .error "TypeError: typeHandlers is not a function for this type"

/-- A parsed 32-byte field descriptor. -/
structure FieldDescriptor where
  name : String
  type : Char
  length : Nat
  precision : Nat
  workAreaId : Nat
  isIndexedInMDXFile : Bool
deriving DecidableEq

/-- A decoded record: the meta deleted flag, and the field-name-to-value
assignments in field order. Names are unique in any parsed header, so the
ordered association list is exactly the JS record object; a name bound to
Value.undefined is a property present on the object whose value is undefined. -/
structure Record where
  deleted : Bool
  fields : List (String × Value)
deriving DecidableEq

/-- isDeleted: read byte 0 of the record chunk (a RangeError on an empty
buffer, as Buffer.readUInt8 throws); space is live, asterisk is deleted,
anything else is an error. -/
def isDeleted (chunk : Bytes) : Except String Bool :=
  match chunk with
  | [] => .error "RangeError: offset is out of range"
  | b :: _ =>
    if b = 0x20 then .ok false
    else if b = 0x2A then .ok true
    else .error ("Invalid deleted record value: " ++ String.mk [Char.ofNat b])

/-- The field loop of convertToRecord: slice length bytes per descriptor from
the running offset, decode them, and bind the result to the field name. -/
def decodeFields (q : Quirks) (chunk : Bytes) : List FieldDescriptor → Nat → Except String (List (String × Value))
  | [], _ => .ok []
  | f :: fs, off =>
    match applyTypeHandler q f.type (asciiDecode ((chunk.drop off).take f.length)) with
    | .error e => .error e
    | .ok v =>
      match decodeFields q chunk fs (off + f.length) with
      | .error e => .error e
      | .ok rest => .ok ((f.name, v) :: rest)

/-- The body of convertToRecord, on the descriptor list: the deleted flag from
byte 0, then the fields decoded from byte 1 onward in descriptor order
(convertToRecord below instantiates it at header.fields, as the source reads). -/
def convertToRecordFields (q : Quirks) (chunk : Bytes) (fields : List FieldDescriptor) : Except String Record :=
  match isDeleted chunk with
  | .error e => .error e
  | .ok del =>
    match decodeFields q chunk fields 1 with
    | .error e => .error e
    | .ok fs => .ok ⟨del, fs⟩

/-- The parsed header object. -/
structure Header where
  version : Nat
  dateOfLastUpdate : JSDate
  numberOfRecords : Int
  numberOfHeaderBytes : Nat
  numberOfBytesInRecord : Int
  hasProductionMDXFile : Nat
  langaugeDriverId : Nat
  fields : List FieldDescriptor
deriving DecidableEq

/-- The supportedVersions set. -/
def supportedVersions : List Nat := [0x03, 0x83, 0xF5, 0x8B, 0x8E]

/-- The supportedFieldTypes set. -/
def supportedFieldTypes : List Char := ['C', 'D', 'F', 'L', 'M', 'N']

/-- parseHeaderField: slice 32 bytes for descriptor i out of the
field-descriptor region and validate-and-extract it. -/
def parseHeaderField (q : Quirks) (fieldBytes : Bytes) (i : Nat) : Except String FieldDescriptor :=
  let field := (fieldBytes.drop (i * 32)).take 32
  let length := readUInt8 field 16
  if length = 255 ∧ ¬ q.allowFieldLength255 then .error "Field length must be less than 255"
  else
    let type := Char.ofNat (readUInt8 field 11)
    if type ∉ supportedFieldTypes then .error "Field type must be one of: C, D, F, L, M, N"
    else if type = 'D' ∧ length ≠ 8 then .error ("Invalid D (date) field length: " ++ toString length)
    else if type = 'L' ∧ length ≠ 1 then .error ("Invalid L (logical) field length: " ++ toString length)
    else if type = 'M' ∧ length ≠ 10 then .error ("Invalid M (memo) field length: " ++ toString length)
    else
      let isIndexedInMDXFile := readUInt8 field 31
      if isIndexedInMDXFile > 1 then
        .error ("Invalid indexed in production MDX file value: " ++ toString isIndexedInMDXFile)
      else
        .ok { name := asciiDecode ((field.take 10).filter (· ≠ 0))
              type := type
              length := length
              precision := readUInt8 field 17
              workAreaId := readUInt16LE field 18
              isIndexedInMDXFile := isIndexedInMDXFile = 1 }

/-- Array.from over the descriptor indices 0..count-1, failing on the first
descriptor whose parse throws. -/
def parseFieldsFrom (q : Quirks) (fieldBytes : Bytes) : Nat → Nat → Except String (List FieldDescriptor)
  | 0, _ => .ok []
  | count + 1, i =>
    match parseHeaderField q fieldBytes i with
    | .error e => .error e
    | .ok f =>
      match parseFieldsFrom q fieldBytes count (i + 1) with
      | .error e => .error e
      | .ok rest => .ok (f :: rest)

/-- The duplicate-field-name reduce: walk the parsed descriptors in order and
fail on the first name already seen. -/
def checkDuplicateNames : List FieldDescriptor → List String → Except String Unit
  | [], _ => .ok ()
  | f :: fs, seen =>
    if f.name ∈ seen then .error ("Duplicate field name " ++ "'" ++ f.name ++ "'")
    else checkDuplicateNames fs (f.name :: seen)

/-- parseHeader on the accumulated buffer, in the validation order of the
source: version, header-byte count mod 32, descriptor-array terminator (a
RangeError when its index falls outside the sliced region, as readUInt8
throws), encryption flag, production-MDX flag, then the descriptors, then the
duplicate-name check. -/
def parseHeader (q : Quirks) (buffer : Bytes) : Except String Header :=
  let versionByte := readUInt8 buffer 0
  if versionByte ∉ supportedVersions then .error ("Unsupported version: " ++ toString versionByte)
  else
    let numberOfHeaderBytes := readUInt16LE buffer 8
    if numberOfHeaderBytes % 32 ≠ 1 then
      .error ("Invalid number of header bytes: " ++ toString numberOfHeaderBytes)
    else
      let fieldBytes := (buffer.take numberOfHeaderBytes).drop 32
      if numberOfHeaderBytes < 33 ∨ fieldBytes.length ≤ numberOfHeaderBytes - 33 then
        .error "RangeError: offset is out of range"
      else if readUInt8 fieldBytes (numberOfHeaderBytes - 33) ≠ 0x0D then
        .error ("Invalid field descriptor array terminator at byte " ++ toString numberOfHeaderBytes)
      else
        let encryptionByte := readUInt8 buffer 15
        if encryptionByte = 1 then .error "Encryption flag is set, cannot process"
        else if encryptionByte > 1 ∧ ¬ q.ignoreUnknownEncryptionByte then
          .error ("Invalid encryption flag value: " ++ toString encryptionByte)
        else
          let hasProductionMDXFile := readUInt8 buffer 28
          if hasProductionMDXFile > 1 then
            .error ("Invalid production MDX file existence value: " ++ toString hasProductionMDXFile)
          else
            match parseFieldsFrom q fieldBytes ((numberOfHeaderBytes - 33) / 32) 0 with
            | .error e => .error e
            | .ok fields =>
              match checkDuplicateNames fields [] with
              | .error e => .error e
              | .ok _ =>
                .ok { version := versionByte
                      dateOfLastUpdate := jsMakeDate (1900 + (readUInt8 buffer 1 : Int))
                        ((readUInt8 buffer 2 : Int) - 1) (readUInt8 buffer 3)
                      numberOfRecords := readInt32LE buffer 4
                      numberOfHeaderBytes := numberOfHeaderBytes
                      numberOfBytesInRecord := readInt16LE buffer 10
                      hasProductionMDXFile := hasProductionMDXFile
                      langaugeDriverId := readUInt8 buffer 29
                      fields := fields }

/-- convertToRecord as the source calls it: on the parsed header. -/
def convertToRecord (q : Quirks) (chunk : Bytes) (h : Header) : Except String Record :=
  convertToRecordFields q chunk h.fields

/-- The recognized constructor options after validation: offset defaults to 0,
size to Infinity (none), deleted to false (validateOffset, validateSize,
validateDeleted); quirks default to all-off. -/
structure Options where
  offset : Nat := 0
  size : Option Nat := none
  deleted : Bool := false
  quirks : Quirks := {}
deriving DecidableEq

/-- hasEnoughBytesForHeader: at least 32 bytes, and at least as many as the
declared header byte count read from bytes 8..9. -/
def hasEnoughBytesForHeader (chunk : Bytes) : Bool :=
  decide (32 ≤ chunk.length) && decide (readUInt16LE chunk 8 ≤ chunk.length)

/-- hasEnoughBytesForRecord: buffer length at least the declared (signed)
record byte count. -/
def hasEnoughBytesForRecord (chunk : Bytes) (h : Header) : Bool :=
  decide (h.numberOfBytesInRecord ≤ (chunk.length : Int))

/-- moreRecordsAreExpected: consumed count below the declared record count. -/
def moreRecordsAreExpected (total : Nat) (h : Header) : Bool :=
  decide ((total : Int) < h.numberOfRecords)

/-- isEligibleForOutput: not deleted, or deleted records are included. -/
def isEligibleForOutput (r : Record) (includeDeletedRecords : Bool) : Bool :=
  !r.deleted || includeDeletedRecords

/-- isWithinPage: the eligibility index lies in the offset/size window
(size none is Infinity, every index from offset on). -/
def isWithinPage (count offset : Nat) (size : Option Nat) : Bool :=
  decide (offset ≤ count) && (match size with | none => true | some s => decide (count < offset + s))

/-- allRecordsHaveBeenProcessed: strict equality of declared and consumed counts. -/
def allRecordsHaveBeenProcessed (expected : Int) (processed : Nat) : Bool :=
  decide (expected = (processed : Int))

/-- aSingleByteRemains. -/
def aSingleByteRemains (b : Bytes) : Bool := decide (b.length = 1)

/-- firstByteIsEOFMarker. -/
def firstByteIsEOFMarker (b : Bytes) : Bool := decide (readUInt8 b 0 = 0x1A)

/-- The mutable decoder state of a YADBF instance: accumulated unconsumed
bytes, the optional parsed header, and the two counters. -/
structure DState where
  unconsumed : Bytes
  header : Option Header
  totalRecordCount : Nat
  eligibleRecordCount : Nat
deriving DecidableEq

/-- The state right after the constructor. -/
def initState : DState := ⟨[], none, 0, 0⟩

/-- The outcome of the record loop of _transform: the records pushed, the two
counters, and the remaining buffer; errored is the destroy-and-return path. -/
inductive LoopResult where
  | done (pushed : List Record) (total elig : Nat) (buf : Bytes)
  | errored (pushed : List Record) (total elig : Nat) (buf : Bytes) (err : String)
deriving DecidableEq

/-- Cons records pushed by an earlier iteration onto a loop outcome. -/
def LoopResult.withPushed (p : List Record) : LoopResult → LoopResult
  | .done q t e b => .done (p ++ q) t e b
  | .errored q t e b err => .errored (p ++ q) t e b err

/-- The while loop of _transform, one fuel unit per iteration (the caller
passes enough fuel for the loop guard total < numberOfRecords to be the only
exit, so the fuel-0 base is unreachable while the guard holds): while a
record-sized slice is available and more records are expected, slice it,
convert it, push it when eligible and within the page, bump the counters and
drop the consumed bytes. -/
def recLoop (o : Options) (h : Header) : Nat → Nat → Nat → Bytes → LoopResult
  | 0, total, elig, buf => .done [] total elig buf
  | fuel + 1, total, elig, buf =>
    if hasEnoughBytesForRecord buf h && moreRecordsAreExpected total h then
      let recordSizedChunk := jsSliceTo buf h.numberOfBytesInRecord
      match convertToRecord o.quirks recordSizedChunk h with
      | .error e => .errored [] total elig buf e
      | .ok record =>
        let eligible := isEligibleForOutput record o.deleted
        let pushedHere := if eligible && isWithinPage elig o.offset o.size then [record] else []
        let elig1 := if eligible then elig + 1 else elig
        (recLoop o h fuel (total + 1) elig1 (buf.drop recordSizedChunk.length)).withPushed pushedHere
    else .done [] total elig buf

/-- The fuel the machine passes to recLoop: the number of records still
expected. -/
def loopFuel (h : Header) (total : Nat) : Nat := (h.numberOfRecords - (total : Int)).toNat

/-- What one _transform call produces: the state left behind, the header event
(emitted at most once, before any record of the call), the records pushed, the
end-of-stream signal (push null), and the destroy error if any. On the
bad-EOF-marker path both errored and ended are set: the source destroys and
then still falls through to delete the buffer and push null. -/
structure TResult where
  state : DState
  headerEvt : Option Header
  pushed : List Record
  ended : Bool
  errored : Option String
deriving DecidableEq

/-- The part of _transform after a header is available: run the record loop,
then the end-of-stream check (on the destroy-and-return paths the check does
not run). -/
def afterHeader (o : Options) (h : Header) (hEvt : Option Header) (buf : Bytes) (total elig : Nat) : TResult :=
  match recLoop o h (loopFuel h total) total elig buf with
  | .errored p t e b _err => ⟨⟨b, some h, t, e⟩, hEvt, p, false, some _err⟩
  | .done p t e b =>
    if allRecordsHaveBeenProcessed h.numberOfRecords t && aSingleByteRemains b then
      if !firstByteIsEOFMarker b then
        ⟨⟨[], some h, t, e⟩, hEvt, p, true, some "Last byte of file is not end-of-file marker"⟩
      else ⟨⟨[], some h, t, e⟩, hEvt, p, true, none⟩
    else ⟨⟨b, some h, t, e⟩, hEvt, p, false, none⟩

/-- One _transform call: append the chunk to the unconsumed bytes; parse and
emit the header once enough bytes are held (an accumulate-and-return when not,
a destroy-and-return when the parse throws); then the record loop and the
end-of-stream check. -/
def transform (o : Options) (s : DState) (chunk : Bytes) : TResult :=
  let buf := s.unconsumed ++ chunk
  match s.header with
  | some h => afterHeader o h none buf s.totalRecordCount s.eligibleRecordCount
  | none =>
    if !hasEnoughBytesForHeader buf then
      ⟨⟨buf, none, s.totalRecordCount, s.eligibleRecordCount⟩, none, [], false, none⟩
    else
      match parseHeader o.quirks buf with
      | .error e => ⟨⟨buf, none, s.totalRecordCount, s.eligibleRecordCount⟩, none, [], false, some e⟩
      | .ok h =>
        afterHeader o h (some h) (buf.drop h.numberOfHeaderBytes) s.totalRecordCount s.eligibleRecordCount

/-- The observable outcome of feeding a list of chunks: the header event, the
pushed records in order, whether end of stream was signaled, the terminal
error if any, and the final state. -/
structure RunResult where
  header : Option Header
  records : List Record
  ended : Bool
  errored : Option String
  state : DState
deriving DecidableEq

/-- Feed chunks one _transform call at a time; a destroyed or ended stream
receives no further calls. -/
def seqFeed (o : Options) (s : DState) : List Bytes → RunResult
  | [] => ⟨none, [], false, none, s⟩
  | c :: cs =>
    let r := transform o s c
    if r.ended || r.errored.isSome then ⟨r.headerEvt, r.pushed, r.ended, r.errored, r.state⟩
    else
      let rest := seqFeed o r.state cs
      ⟨(match r.headerEvt with | some h => some h | none => rest.header),
       r.pushed ++ rest.records, rest.ended, rest.errored, rest.state⟩

/-- Run a fresh decoder over a list of chunks. -/
def runChunks (o : Options) (cs : List Bytes) : RunResult := seqFeed o initState cs

/-- A minimal accepted header buffer: version 0x03, 33 header bytes, no fields. -/
def c5buf : Bytes :=
  [0x03, 0, 0, 0, 0, 0, 0, 0, 33, 0, 0, 0, 0, 0, 0, 0,
   0, 0, 0, 0, 0, 0, 0, 0, 0, 0, 0, 0, 0, 0, 0, 0, 0x0D]

/-- The header parseHeader yields for c5buf. -/
def c5hdr : Header := ⟨3, ⟨true, -25599⟩, 0, 33, 0, 0, 0, []⟩

/-- The L-type descriptor used by the C6 counterexample. -/
def c6field : FieldDescriptor := ⟨"F", 'L', 1, 0, 0, false⟩

/-- A descriptor whose 10-byte name region is A, NUL, B, NUL-padding. -/
def c10descr : Bytes :=
  [0x41, 0, 0x42, 0, 0, 0, 0, 0, 0, 0, 0, 0x43, 0, 0, 0, 0,
   2, 0, 0, 0, 0, 0, 0, 0, 0, 0, 0, 0, 0, 0, 0, 0]

/-- A descriptor whose name region is A, B, then NUL-padding. -/
def c10descr2 : Bytes :=
  [0x41, 0x42, 0, 0, 0, 0, 0, 0, 0, 0, 0, 0x43, 0, 0, 0, 0,
   2, 0, 0, 0, 0, 0, 0, 0, 0, 0, 0, 0, 0, 0, 0, 0]

/-- A header buffer whose two descriptors both NUL-strip to the name "AB". -/
def c10buf : Bytes :=
  [0x03, 0, 0, 0, 0, 0, 0, 0, 97, 0, 0, 0, 0, 0, 0, 0,
   0, 0, 0, 0, 0, 0, 0, 0, 0, 0, 0, 0, 0, 0, 0, 0] ++ c10descr2 ++ c10descr ++ [0x0D]

/-- The header used by the C4 witness: one expected record of one byte. -/
def c4hdr : Header := ⟨0x8B, ⟨true, 0⟩, 1, 33, 1, 0, 0, []⟩

/-- The parsed header (one two-byte C field, one declared record of three
bytes) used by the C7 and C9 witnesses. -/
def c7hdr : Header := ⟨0x8B, ⟨true, 0⟩, 1, 65, 3, 0, 0, [⟨"A", 'C', 2, 0, 0, false⟩]⟩

/-- The post-header decoder state used by the C7 and C9 witnesses. -/
def c7state : DState := ⟨[], some c7hdr, 0, 0⟩

/-- The emitted sublist of an eligible-record list whose first element carries
eligibility index e: exactly the members whose index falls in the page window. -/
def pageWindow (offset : Nat) (size : Option Nat) : Nat → List Record → List Record
  | _, [] => []
  | e, r :: rest => (if isWithinPage e offset size then [r] else []) ++ pageWindow offset size (e + 1) rest

/-- A three-record input (the middle record deleted) used by the C3 witness. -/
def c3file : Bytes :=
  [0x8B, 0, 1, 1, 3, 0, 0, 0, 65, 0, 3, 0, 0, 0, 0, 0,
   0, 0, 0, 0, 0, 0, 0, 0, 0, 0, 0, 0, 0, 0, 0, 0] ++
  [0x41, 0, 0, 0, 0, 0, 0, 0, 0, 0, 0, 0x43, 0, 0, 0, 0,
   2, 0, 0, 0, 0, 0, 0, 0, 0, 0, 0, 0, 0, 0, 0, 0] ++
  [0x0D] ++ [0x20, 0x61, 0x61] ++ [0x2A, 0x62, 0x62] ++ [0x20, 0x63, 0x63] ++ [0x1A]

/-- The C1 counterexample input: a valid header that declares
numberOfBytesInRecord = -1 (bytes 10..11 read as a signed 16-bit integer),
one record, one C field of length 1, then bytes 0x20 0x41 0x1A. -/
def fileNeg : Bytes :=
  [0x8B, 0, 1, 1, 1, 0, 0, 0, 65, 0, 0xFF, 0xFF, 0, 0, 0, 0,
   0, 0, 0, 0, 0, 0, 0, 0, 0, 0, 0, 0, 0, 0, 0, 0] ++
  [0x41, 0, 0, 0, 0, 0, 0, 0, 0, 0, 0, 0x43, 0, 0, 0, 0,
   1, 0, 0, 0, 0, 0, 0, 0, 0, 0, 0, 0, 0, 0, 0, 0] ++
  [0x0D] ++ [0x20, 0x41, 0x1A]

/-- The header the decoder parses from c3file. -/
def c3hdr : Header := ⟨0x8B, ⟨true, -25567⟩, 3, 65, 3, 0, 0, [⟨"A", 'C', 2, 0, 0, false⟩]⟩

/-! Claim theorems. -/

/-- Array.from with a count produces that many descriptors when no parse throws. -/
lemma parseFieldsFrom_length (q : Quirks) (fb : Bytes) :
    ∀ (count i : Nat) (l : List FieldDescriptor),
      parseFieldsFrom q fb count i = .ok l → l.length = count := by
  intro count
  induction count with
  | zero => intro i l hl; simp [parseFieldsFrom] at hl; simp [← hl]
  | succ n ih =>
    intro i l hl
    simp only [parseFieldsFrom] at hl
    split at hl
    · exact Except.noConfusion hl
    · split at hl
      · exact Except.noConfusion hl
      · rename_i f _ rest hrest
        injection hl with hl
        subst hl
        simp [ih (i+1) rest hrest]

/-- C5: every header the validator accepts has numberOfHeaderBytes congruent to
1 mod 32, and numberOfHeaderBytes = 32 + 32 * fieldCount + 1 where fieldCount
is the length of its field-descriptor list. -/
theorem C5_header_byte_invariant (q : Quirks) (buffer : Bytes) (h : Header)
    (hok : parseHeader q buffer = .ok h) :
    h.numberOfHeaderBytes % 32 = 1 ∧
    h.numberOfHeaderBytes = 32 + 32 * h.fields.length + 1 := by
  simp only [parseHeader] at hok
  split at hok
  · exact Except.noConfusion hok
  split at hok
  · exact Except.noConfusion hok
  split at hok
  · exact Except.noConfusion hok
  split at hok
  · exact Except.noConfusion hok
  split at hok
  · exact Except.noConfusion hok
  split at hok
  · exact Except.noConfusion hok
  split at hok
  · exact Except.noConfusion hok
  split at hok
  · exact Except.noConfusion hok
  rename_i flds hflds
  split at hok
  · exact Except.noConfusion hok
  injection hok with hok
  subst hok
  have hlen := parseFieldsFrom_length q _ _ _ _ hflds
  simp only [hlen]
  omega

/-- Witness for C5 at a concrete accepted header. -/
theorem C5_header_byte_invariant_witness :
    c5hdr.numberOfHeaderBytes % 32 = 1 ∧
    c5hdr.numberOfHeaderBytes = 32 + 32 * c5hdr.fields.length + 1 :=
  C5_header_byte_invariant {} c5buf c5hdr (by decide)

/-- C2: a Date field of 8 digit characters decodes through the ISO string
"YYYY-MM-DD", so the date is built from year chars 0..3, the month chars 4..5
verbatim (passed one-based to the civil-date computation, not shifted down),
and day chars 6..7; concretely "19520719" is 1952-07-19 (month 7, not 6); and
any accepted header's own last-update date is built with 1 subtracted from the
month byte (passed as the zero-based month index of the numeric constructor). -/
theorem C2_date_month_verbatim (a b c d e f g h : Char)
    (hdig : ([a, b, c, d, e, f, g, h].all Char.isDigit) = true)
    (hm1 : 1 ≤ digitsToNat [e, f]) (hm2 : digitsToNat [e, f] ≤ 12)
    (hd1 : 1 ≤ digitsToNat [g, h]) (hd2 : digitsToNat [g, h] ≤ 31) :
    (handleD (String.mk [a, b, c, d, e, f, g, h]) =
      .date ⟨true, daysFromCivil (digitsToNat [a, b, c, d]) (digitsToNat [e, f]) 1 +
        ((digitsToNat [g, h] : Int) - 1)⟩) ∧
    (handleD "19520719" = .date ⟨true, -6375⟩ ∧
      JSDate.year ⟨true, -6375⟩ = 1952 ∧ JSDate.month ⟨true, -6375⟩ = 7 ∧
      ¬ JSDate.month ⟨true, -6375⟩ = 6 ∧ JSDate.day ⟨true, -6375⟩ = 19) ∧
    (∀ (q : Quirks) (buf : Bytes) (hdr : Header), parseHeader q buf = .ok hdr →
      hdr.dateOfLastUpdate =
        jsMakeDate (1900 + (readUInt8 buf 1 : Int)) ((readUInt8 buf 2 : Int) - 1) (readUInt8 buf 3)) := by
  refine ⟨?_, by decide, ?_⟩
  · show (jsDateOfString (String.mk [a, b, c, d, '-', e, f, '-', g, h]) |> Value.date) = _
    simp only [jsDateOfString]
    rw [if_pos, if_pos]
    · exact ⟨by omega, by omega, by omega, by omega⟩
    · exact ⟨hdig, trivial, trivial⟩
  · intro q buf hdr hok
    simp only [parseHeader] at hok
    split at hok
    · exact Except.noConfusion hok
    split at hok
    · exact Except.noConfusion hok
    split at hok
    · exact Except.noConfusion hok
    split at hok
    · exact Except.noConfusion hok
    split at hok
    · exact Except.noConfusion hok
    split at hok
    · exact Except.noConfusion hok
    split at hok
    · exact Except.noConfusion hok
    split at hok
    · exact Except.noConfusion hok
    split at hok
    · exact Except.noConfusion hok
    injection hok with hok
    subst hok
    rfl

/-- Witness for C2 at the text "19520719". -/
theorem C2_date_month_verbatim_witness :
    handleD (String.mk ['1', '9', '5', '2', '0', '7', '1', '9']) =
      .date ⟨true, daysFromCivil 1952 7 1 + ((19 : Int) - 1)⟩ :=
  (C2_date_month_verbatim '1' '9' '5' '2' '0' '7' '1' '9'
    (by decide) (by decide) (by decide) (by decide) (by decide)).1

/-- C6 counterexample: decoding a live record whose single L field holds a
space yields a record whose key list still contains the field name (bound to
the undefined value), so the key is not omitted from the record object. -/
theorem C6_key_present_counterexample :
    handleL {} " " = .ok Value.undefined ∧
    convertToRecordFields {} [0x20, 0x20] [c6field] = .ok ⟨false, [("F", Value.undefined)]⟩ ∧
    (Record.mk false [("F", Value.undefined)]).fields.map Prod.fst = ["F"] := by decide

/-- C6 as amended: Y/y/T/t decode to true, N/n/F/f to false, a question mark or
space to the undefined value (the key stays present on the record, bound to
undefined, not null), and any other value throws the invalid-logical-value
error unless the leniency flag makes it undefined too. -/
theorem C6_logical_decoding (q : Quirks) (v : String) :
    (v ∈ truthyValues → handleL q v = .ok (.bool true)) ∧
    (v ∈ falseyValues → handleL q v = .ok (.bool false)) ∧
    (v = "?" ∨ v = " " → handleL q v = .ok .undefined) ∧
    (v ∉ truthyValues → v ∉ falseyValues → v ≠ "?" → v ≠ " " →
      handleL q v = if q.typeL_allowUnknownValues then .ok .undefined
                    else .error ("Invalid L-type field value: " ++ v)) ∧
    (∀ name : String, decodeFields q [0x20, 0x20] [⟨name, 'L', 1, 0, 0, false⟩] 1 =
      .ok [(name, Value.undefined)]) := by
  refine ⟨?_, ?_, ?_, ?_, ?_⟩
  · intro hv; fin_cases hv <;> rfl
  · intro hv; fin_cases hv <;> rfl
  · rintro (rfl | rfl) <;> simp [handleL, truthyValues, falseyValues]
  · intro h1 h2 h3 h4
    cases hq : q.typeL_allowUnknownValues
    · rw [if_neg (by simp)]
      simp only [handleL, hq]
      rw [if_neg h1, if_neg h2, if_pos ⟨h3, h4, by simp⟩]
    · rw [if_pos rfl]
      simp only [handleL, hq]
      rw [if_neg h1, if_neg h2, if_neg (by simp)]
  · intro name
    show decodeFields q [32, 32] [⟨name, 'L', 1, 0, 0, false⟩] 1 = _
    simp only [decodeFields, applyTypeHandler]
    norm_num
    rfl

/-- Witness for C6 as amended, at the values "Y" and " ". -/
theorem C6_logical_decoding_witness :
    handleL {} "Y" = .ok (.bool true) ∧ handleL {} " " = .ok .undefined :=
  ⟨(C6_logical_decoding {} "Y").1 (by decide), (C6_logical_decoding {} " ").2.2.1 (Or.inr rfl)⟩

/-- C8: a 10-character memo value is accepted (and returned verbatim) under the
default exactly when it is 10 digits or 10 spaces; under the left-padding
leniency exactly when its leading spaces are followed by digits only (so up to
10 spaces then up to 10 digits across the 10 columns); every rejection is the
record-level invalid-memo error carrying the offending value; concretely 10
spaces are accepted verbatim and "     4    " raises that error. -/
theorem C8_memo_acceptance (q : Quirks) (s : String) (hlen : s.data.length = 10) :
    (¬ q.typeM_allowLeftSpacePadding = true →
      (handleM q s = .ok (.str s) ↔
        (s.data.all Char.isDigit = true ∨ s.data.all (· = ' ') = true))) ∧
    (q.typeM_allowLeftSpacePadding = true →
      (handleM q s = .ok (.str s) ↔ (s.data.dropWhile (· = ' ')).all Char.isDigit = true)) ∧
    (handleM q s = .ok (.str s) ∨
      handleM q s = .error ("Invalid M-type field value: " ++ "'" ++ s ++ "'")) ∧
    handleM {} "          " = .ok (.str "          ") ∧
    handleM {} "     4    " = .error "Invalid M-type field value: '     4    '" := by
  refine ⟨?_, ?_, ?_, by decide, by decide⟩
  · intro hq
    have hq1 : q.typeM_allowLeftSpacePadding = false := by
      revert hq; cases q.typeM_allowLeftSpacePadding <;> simp
    simp only [handleM, hq1, Bool.false_eq_true, if_false]
    split <;> rename_i hb
    · simp only [validMTypeValue, hlen] at hb
      simp at hb ⊢
      tauto
    · simp only [validMTypeValue, hlen] at hb
      simp at hb ⊢
      tauto
  · intro hq
    simp only [handleM, hq, if_true]
    split <;> rename_i hb
    · simp only [validMTypeValuePadded] at hb
      simp at hb ⊢
      tauto
    · simp only [validMTypeValuePadded] at hb
      simp [hlen] at hb ⊢
      first
      | exact hb
      | exact hb (hlen ▸ (List.dropWhile_sublist _).length_le)
  · cases hc : (if q.typeM_allowLeftSpacePadding then validMTypeValuePadded s else validMTypeValue s)
    · exact Or.inr (by simp [handleM, hc])
    · exact Or.inl (by simp [handleM, hc])

/-- Witness for C8 at the all-digit value. -/
theorem C8_memo_acceptance_witness :
    handleM {} "0123456789" = .ok (.str "0123456789") :=
  ((C8_memo_acceptance {} "0123456789" (by decide)).1 (by decide)).mpr (Or.inl (by decide))

/-- C10: field-name extraction removes every NUL byte in the 10-byte name
region, interior ones included (bytes A, NUL, B give the name "AB"), and the
duplicate-name check runs over these fully stripped names (a header whose
descriptors read "AB" and "A NUL B" is rejected as a duplicate of "AB"). -/
theorem C10_nul_stripped_names :
    parseHeaderField {} c10descr 0 = .ok ⟨"AB", 'C', 2, 0, 0, false⟩ ∧
    parseHeaderField {} c10descr2 0 = .ok ⟨"AB", 'C', 2, 0, 0, false⟩ ∧
    parseHeader {} c10buf = .error "Duplicate field name 'AB'" := by decide

/-- Prepending no pushed records changes nothing. -/
lemma LoopResult.withPushed_nil (r : LoopResult) : r.withPushed [] = r := by
  cases r <;> simp [LoopResult.withPushed]

/-- C4: when the loop guard holds and the record-sized slice decodes, the
iteration always advances the structural-consumed counter by exactly one
(total + 1 in the recursive call, whatever the deletion status or the push
decision), advances the eligibility counter exactly when the record is
eligible, and pushes the record exactly when it is eligible and inside the
page window; a deleted record is eligible precisely when deletion-inclusion is
enabled; an ineligible record leaves the eligibility counter untouched and is
not pushed. -/
theorem C4_record_accounting (o : Options) (h : Header) (fuel total elig : Nat)
    (buf : Bytes) (r : Record)
    (hcond : (hasEnoughBytesForRecord buf h && moreRecordsAreExpected total h) = true)
    (hok : convertToRecord o.quirks (jsSliceTo buf h.numberOfBytesInRecord) h = .ok r) :
    recLoop o h (fuel + 1) total elig buf =
      (recLoop o h fuel (total + 1)
        (if isEligibleForOutput r o.deleted then elig + 1 else elig)
        (buf.drop (jsSliceTo buf h.numberOfBytesInRecord).length)).withPushed
        (if isEligibleForOutput r o.deleted && isWithinPage elig o.offset o.size then [r] else []) ∧
    (r.deleted = true → (isEligibleForOutput r o.deleted = true ↔ o.deleted = true)) ∧
    (isEligibleForOutput r o.deleted = false →
      recLoop o h (fuel + 1) total elig buf =
        recLoop o h fuel (total + 1) elig
          (buf.drop (jsSliceTo buf h.numberOfBytesInRecord).length)) := by
  have heq : recLoop o h (fuel + 1) total elig buf =
      (recLoop o h fuel (total + 1)
        (if isEligibleForOutput r o.deleted then elig + 1 else elig)
        (buf.drop (jsSliceTo buf h.numberOfBytesInRecord).length)).withPushed
        (if isEligibleForOutput r o.deleted && isWithinPage elig o.offset o.size then [r] else []) := by
    conv_lhs => simp only [recLoop]
    rw [if_pos hcond, hok]
  refine ⟨heq, ?_, ?_⟩
  · intro hdel
    simp [isEligibleForOutput, hdel]
  · intro hni
    rw [heq, hni]
    simp [LoopResult.withPushed_nil]

/-- Witness for C4 at a concrete deleted one-byte record (default options, so
the record is ineligible: the eligibility counter stays 0 and nothing is
pushed while the consumed counter advances). -/
theorem C4_record_accounting_witness :
    recLoop {} c4hdr 6 0 0 [0x2A] = recLoop {} c4hdr 5 1 0 [] := by
  have h3 := (C4_record_accounting {} c4hdr 5 0 0 [0x2A] ⟨true, []⟩
    (by decide) (by decide)).2.2 (by decide)
  simpa using h3

/-- C7: once the record loop leaves the structural-consumed counter equal to
the declared record count with exactly one byte remaining, that byte is
checked against the end-of-file marker: a different byte raises the terminal
error naming the marker; the marker itself ends the stream cleanly with the
buffer discarded. -/
theorem C7_eof_marker_check (o : Options) (s : DState) (chunk : Bytes) (h : Header)
    (p : List Record) (t e b : Nat)
    (hhdr : s.header = some h)
    (hloop : recLoop o h (loopFuel h s.totalRecordCount) s.totalRecordCount
      s.eligibleRecordCount (s.unconsumed ++ chunk) = .done p t e [b])
    (hall : h.numberOfRecords = (t : Int)) :
    (¬ b = 0x1A →
      (transform o s chunk).errored = some "Last byte of file is not end-of-file marker") ∧
    (b = 0x1A →
      (transform o s chunk).errored = none ∧ (transform o s chunk).ended = true ∧
      (transform o s chunk).state.unconsumed = []) := by
  have htr : transform o s chunk =
      afterHeader o h none (s.unconsumed ++ chunk) s.totalRecordCount s.eligibleRecordCount := by
    simp only [transform, hhdr]
  rw [htr]
  simp only [afterHeader, hloop]
  rw [if_pos]
  · constructor
    · intro hb
      rw [if_pos]
      simp [firstByteIsEOFMarker, readUInt8]
      omega
    · intro hb
      subst hb
      rw [if_neg]
      · exact ⟨rfl, rfl, rfl⟩
      · simp [firstByteIsEOFMarker, readUInt8]
  · simp [allRecordsHaveBeenProcessed, aSingleByteRemains, hall]

/-- Witness for C7: the good end-of-file marker ends the stream cleanly. -/
theorem C7_eof_marker_check_witness :
    (transform {} c7state [0x20, 0x61, 0x62, 0x1A]).errored = none ∧
    (transform {} c7state [0x20, 0x61, 0x62, 0x1A]).ended = true ∧
    (transform {} c7state [0x20, 0x61, 0x62, 0x1A]).state.unconsumed = [] :=
  (C7_eof_marker_check {} c7state [0x20, 0x61, 0x62, 0x1A] c7hdr
    [⟨false, [("A", .str "ab")]⟩] 1 1 0x1A rfl (by decide) (by decide)).2 rfl

/-- C9: on the bad-marker path the destroy call does not return early: the
same transform step still discards the accumulation buffer and signals end of
stream alongside the terminal error. -/
theorem C9_error_still_ends (o : Options) (s : DState) (chunk : Bytes) (h : Header)
    (p : List Record) (t e b : Nat)
    (hhdr : s.header = some h)
    (hloop : recLoop o h (loopFuel h s.totalRecordCount) s.totalRecordCount
      s.eligibleRecordCount (s.unconsumed ++ chunk) = .done p t e [b])
    (hall : h.numberOfRecords = (t : Int))
    (hbad : ¬ b = 0x1A) :
    (transform o s chunk).errored = some "Last byte of file is not end-of-file marker" ∧
    (transform o s chunk).ended = true ∧
    (transform o s chunk).state.unconsumed = [] := by
  have htr : transform o s chunk =
      afterHeader o h none (s.unconsumed ++ chunk) s.totalRecordCount s.eligibleRecordCount := by
    simp only [transform, hhdr]
  rw [htr]
  simp only [afterHeader, hloop]
  rw [if_pos]
  · rw [if_pos]
    · exact ⟨rfl, rfl, rfl⟩
    · simp [firstByteIsEOFMarker, readUInt8]
      omega
  · simp [allRecordsHaveBeenProcessed, aSingleByteRemains, hall]

/-- Witness for C9: the trailing byte 0x1B raises the marker error and still
ends the stream with the buffer discarded. -/
theorem C9_error_still_ends_witness :
    (transform {} c7state [0x20, 0x61, 0x62, 0x1B]).errored =
      some "Last byte of file is not end-of-file marker" ∧
    (transform {} c7state [0x20, 0x61, 0x62, 0x1B]).ended = true ∧
    (transform {} c7state [0x20, 0x61, 0x62, 0x1B]).state.unconsumed = [] :=
  C9_error_still_ends {} c7state [0x20, 0x61, 0x62, 0x1B] c7hdr
    [⟨false, [("A", .str "ab")]⟩] 1 1 0x1B rfl (by decide) (by decide) (by decide)

/-- With offset 0 and unbounded size every index is inside the page. -/
lemma isWithinPage_base (e : Nat) : isWithinPage e 0 none = true := by
  simp [isWithinPage]

/-- Pagination only filters pushes: the loop under any offset/size behaves as
the loop under offset 0 / unbounded size (same counters, same remaining buffer,
same error), with its pushed list cut down to the page window. -/
lemma recLoop_page (o : Options) (h : Header) :
    ∀ (fuel t e : Nat) (buf : Bytes),
      recLoop o h fuel t e buf =
        (match recLoop { o with offset := 0, size := none } h fuel t e buf with
         | .done p t1 e1 b1 => .done (pageWindow o.offset o.size e p) t1 e1 b1
         | .errored p t1 e1 b1 err => .errored (pageWindow o.offset o.size e p) t1 e1 b1 err) := by
  intro fuel
  induction fuel with
  | zero => intro t e buf; simp [recLoop, pageWindow]
  | succ n ih =>
    intro t e buf
    by_cases hc : (hasEnoughBytesForRecord buf h && moreRecordsAreExpected t h) = true
    · rw [recLoop, if_pos hc]
      conv_rhs => rw [recLoop]
      rw [if_pos hc]
      rcases hcv : convertToRecord o.quirks (jsSliceTo buf h.numberOfBytesInRecord) h with err | r
      · simp [hcv, pageWindow]
      · simp only [hcv]
        cases hel : isEligibleForOutput r o.deleted with
        | false =>
          simp only [hel, Bool.false_eq_true, false_and, if_false, if_neg]
          rw [ih (t+1) e (buf.drop (jsSliceTo buf h.numberOfBytesInRecord).length)]
          cases recLoop { o with offset := 0, size := none } h n (t+1) e
              (buf.drop (jsSliceTo buf h.numberOfBytesInRecord).length) with
          | done p t1 e1 b1 => simp [LoopResult.withPushed]
          | errored p t1 e1 b1 err => simp [LoopResult.withPushed]
        | true =>
          simp only [hel, isWithinPage_base, true_and, if_true]
          rw [ih (t+1) (e+1) (buf.drop (jsSliceTo buf h.numberOfBytesInRecord).length)]
          cases recLoop { o with offset := 0, size := none } h n (t+1) (e+1)
              (buf.drop (jsSliceTo buf h.numberOfBytesInRecord).length) with
          | done p t1 e1 b1 => simp [LoopResult.withPushed, pageWindow]
          | errored p t1 e1 b1 err => simp [LoopResult.withPushed, pageWindow]
    · rw [recLoop, if_neg hc]
      conv_rhs => rw [recLoop]
      rw [if_neg hc]
      simp [pageWindow]

/-- The page window over indices from e, with unbounded size, is a drop. -/
lemma pageWindow_none (off : Nat) :
    ∀ (l : List Record) (e : Nat), pageWindow off none e l = l.drop (off - e) := by
  intro l
  induction l with
  | nil => intro e; simp [pageWindow]
  | cons r rest ih =>
    intro e
    rw [pageWindow, ih (e + 1)]
    by_cases he : off ≤ e
    · rw [if_pos (by simp [isWithinPage, he])]
      have h1 : off - e = 0 := by omega
      have h2 : off - (e + 1) = 0 := by omega
      simp [h1, h2]
    · rw [if_neg (by simp [isWithinPage]; omega)]
      have h1 : off - e = (off - (e + 1)) + 1 := by omega
      simp [h1]

/-- The page window over indices from e, with a finite size, is a drop then a
take. -/
lemma pageWindow_some (off s : Nat) :
    ∀ (l : List Record) (e : Nat),
      pageWindow off (some s) e l = (l.drop (off - e)).take (off + s - max e off) := by
  intro l
  induction l with
  | nil => intro e; simp [pageWindow]
  | cons r rest ih =>
    intro e
    rw [pageWindow, ih (e + 1)]
    by_cases he : off ≤ e
    · have hmax : max e off = e := by omega
      have hmax1 : max (e + 1) off = e + 1 := by omega
      by_cases hs : e < off + s
      · rw [if_pos (by simp [isWithinPage]; omega)]
        have h1 : off - e = 0 := by omega
        have h2 : off - (e + 1) = 0 := by omega
        have h3 : off + s - e = (off + s - (e + 1)) + 1 := by omega
        simp [h1, h2, h3, hmax, hmax1]
      · rw [if_neg (by simp [isWithinPage]; omega)]
        have h1 : off - e = 0 := by omega
        have h2 : off - (e + 1) = 0 := by omega
        have h3 : off + s - e = 0 := by omega
        have h4 : off + s - (e + 1) = 0 := by omega
        simp [h1, h2, h3, h4, hmax, hmax1]
    · rw [if_neg (by simp [isWithinPage]; omega)]
      have hmax : max e off = off := by omega
      have hmax1 : max (e + 1) off = off := by omega
      have h1 : off - e = (off - (e + 1)) + 1 := by omega
      simp [h1, hmax, hmax1]

/-- The record-loop-and-end-check stage under any pagination equals the
offset-0/unbounded stage with its pushes windowed. -/
lemma afterHeader_page (o : Options) (h : Header) (hEvt : Option Header) (buf : Bytes) (t e : Nat) :
    afterHeader o h hEvt buf t e =
      { afterHeader { o with offset := 0, size := none } h hEvt buf t e with
        pushed := pageWindow o.offset o.size e
          (afterHeader { o with offset := 0, size := none } h hEvt buf t e).pushed } := by
  simp only [afterHeader]
  rw [recLoop_page o h (loopFuel h t) t e buf]
  cases recLoop { o with offset := 0, size := none } h (loopFuel h t) t e buf with
  | errored p t1 e1 b1 err => rfl
  | done p t1 e1 b1 =>
    simp only
    by_cases hend : (allRecordsHaveBeenProcessed h.numberOfRecords t1 && aSingleByteRemains b1) = true
    · rw [if_pos hend, if_pos hend]
      by_cases hmark : firstByteIsEOFMarker b1 = true
      · simp [hmark]
      · simp [hmark]
    · rw [if_neg hend, if_neg hend]

/-- One transform call under any pagination equals the offset-0/unbounded call
with its pushes windowed from the current eligibility counter. -/
lemma transform_page (o : Options) (s : DState) (chunk : Bytes) :
    transform o s chunk =
      { transform { o with offset := 0, size := none } s chunk with
        pushed := pageWindow o.offset o.size s.eligibleRecordCount
          (transform { o with offset := 0, size := none } s chunk).pushed } := by
  simp only [transform]
  cases hh : s.header with
  | some h => exact afterHeader_page o h none (s.unconsumed ++ chunk) s.totalRecordCount s.eligibleRecordCount
  | none =>
    by_cases hen : hasEnoughBytesForHeader (s.unconsumed ++ chunk) = true
    · simp only [hen, Bool.not_true, Bool.false_eq_true, if_false]
      rcases hp : parseHeader o.quirks (s.unconsumed ++ chunk) with err | hdr
      · rfl
      · exact afterHeader_page o hdr (some hdr) ((s.unconsumed ++ chunk).drop hdr.numberOfHeaderBytes)
          s.totalRecordCount s.eligibleRecordCount
    · simp only [Bool.not_eq_true] at hen
      simp [hen, pageWindow]

/-- A whole-input run is one transform call from the fresh state. -/
lemma runChunks_single (o : Options) (input : Bytes) :
    runChunks o [input] =
      ⟨(transform o initState input).headerEvt, (transform o initState input).pushed,
       (transform o initState input).ended, (transform o initState input).errored,
       (transform o initState input).state⟩ := by
  simp only [runChunks, seqFeed]
  by_cases hc : ((transform o initState input).ended || (transform o initState input).errored.isSome) = true
  · rw [if_pos hc]
  · rw [if_neg hc]
    simp only [Bool.or_eq_true, not_or] at hc
    obtain ⟨h1, h2⟩ := hc
    have h1e : (transform o initState input).ended = false := by
      revert h1; cases (transform o initState input).ended <;> simp
    have h2e : (transform o initState input).errored = none := by
      revert h2; cases (transform o initState input).errored <;> simp
    rw [h1e, h2e]
    cases hh : (transform o initState input).headerEvt <;> simp [seqFeed]

/-- C3: with E the eligible records of the input (the output of the run with
offset 0 and unbounded size, which pushes every eligible record), the run
under (offset, size) emits exactly E[offset .. min(n, offset+size)): the drop
of offset records then at most size records; size 0 emits nothing; an offset
at or past n emits nothing; an unspecified size emits every eligible record
from offset on. -/
theorem C3_pagination_law (o : Options) (input : Bytes) :
    ((runChunks o [input]).records =
      (match o.size with
       | none => (runChunks { o with offset := 0, size := none } [input]).records.drop o.offset
       | some sz =>
         ((runChunks { o with offset := 0, size := none } [input]).records.drop o.offset).take sz)) ∧
    (o.size = some 0 → (runChunks o [input]).records = []) ∧
    ((runChunks { o with offset := 0, size := none } [input]).records.length ≤ o.offset →
      (runChunks o [input]).records = []) ∧
    (o.size = none →
      (runChunks o [input]).records =
        (runChunks { o with offset := 0, size := none } [input]).records.drop o.offset) := by
  have hmain : (runChunks o [input]).records =
      pageWindow o.offset o.size 0 (runChunks { o with offset := 0, size := none } [input]).records := by
    rw [runChunks_single, runChunks_single]
    simp only
    rw [transform_page o initState input]
    rfl
  have hfork : (runChunks o [input]).records =
      (match o.size with
       | none => (runChunks { o with offset := 0, size := none } [input]).records.drop o.offset
       | some sz =>
         ((runChunks { o with offset := 0, size := none } [input]).records.drop o.offset).take sz) := by
    rw [hmain]
    cases hsz : o.size with
    | none => rw [pageWindow_none]; simp
    | some sz =>
      rw [pageWindow_some]
      have h1 : o.offset - 0 = o.offset := by omega
      have h2 : o.offset + sz - max 0 o.offset = sz := by omega
      rw [h1, h2]
  refine ⟨hfork, ?_, ?_, ?_⟩
  · intro h0
    rw [hfork, h0]
    simp
  · intro hlen
    rw [hfork]
    have hd : (runChunks { o with offset := 0, size := none } [input]).records.drop o.offset = [] := by
      rw [List.drop_eq_nil_iff]
      exact hlen
    cases o.size <;> simp [hd]
  · intro hnone
    rw [hfork, hnone]

/-- Witness for C3: offset 1 with unbounded size over the three-record file. -/
theorem C3_pagination_law_witness :
    (runChunks { offset := 1 } [c3file]).records =
      (runChunks { ({ offset := 1 } : Options) with offset := 0, size := none } [c3file]).records.drop 1 :=
  (C3_pagination_law { offset := 1 } c3file).2.2.2 rfl

end Yadbf

namespace Yadbf

lemma recLoop_succ (o : Options) (h : Header) (n t e : Nat) (buf : Bytes) :
    recLoop o h (n + 1) t e buf =
      if (hasEnoughBytesForRecord buf h && moreRecordsAreExpected t h) = true then
        match convertToRecord o.quirks (jsSliceTo buf h.numberOfBytesInRecord) h with
        | .error err => .errored [] t e buf err
        | .ok record =>
          (recLoop o h n (t + 1)
            (if isEligibleForOutput record o.deleted then e + 1 else e)
            (buf.drop (jsSliceTo buf h.numberOfBytesInRecord).length)).withPushed
            (if isEligibleForOutput record o.deleted && isWithinPage e o.offset o.size then [record] else [])
      else .done [] t e buf := rfl

lemma recLoop_stopped (o : Options) (h : Header) {t : Nat}
    (hm : moreRecordsAreExpected t h = false) :
    ∀ (f e : Nat) (buf : Bytes), recLoop o h f t e buf = .done [] t e buf := by
  intro f e buf
  cases f with
  | zero => rfl
  | succ n => rw [recLoop_succ, if_neg (by simp [hm])]

lemma loopFuel_succ (h : Header) (t : Nat) (hm : moreRecordsAreExpected t h = true) :
    loopFuel h t = loopFuel h (t + 1) + 1 := by
  simp only [moreRecordsAreExpected, decide_eq_true_eq] at hm
  simp only [loopFuel]
  omega

lemma loopFuel_zero (h : Header) (t : Nat) (hz : loopFuel h t = 0) :
    moreRecordsAreExpected t h = false := by
  simp only [loopFuel] at hz
  simp only [moreRecordsAreExpected, decide_eq_false_iff_not]
  omega

lemma recLoop_fuel (o : Options) (h : Header) :
    ∀ (f1 f2 t e : Nat) (buf : Bytes), loopFuel h t ≤ f1 → loopFuel h t ≤ f2 →
      recLoop o h f1 t e buf = recLoop o h f2 t e buf := by
  intro f1
  induction f1 with
  | zero =>
    intro f2 t e buf h1 h2
    have hm := loopFuel_zero h t (by omega)
    rw [recLoop_stopped o h hm, recLoop_stopped o h hm]
  | succ n ih =>
    intro f2 t e buf h1 h2
    cases f2 with
    | zero =>
      have hm := loopFuel_zero h t (by omega)
      rw [recLoop_stopped o h hm, recLoop_stopped o h hm]
    | succ m =>
      rw [recLoop_succ, recLoop_succ]
      by_cases hc : (hasEnoughBytesForRecord buf h && moreRecordsAreExpected t h) = true
      · rw [if_pos hc, if_pos hc]
        rcases hcv : convertToRecord o.quirks (jsSliceTo buf h.numberOfBytesInRecord) h with err | r
        · rfl
        · dsimp only
          have hm : moreRecordsAreExpected t h = true := (Bool.and_eq_true .. |>.mp hc).2
          have hfs := loopFuel_succ h t hm
          rw [ih m (t+1) _ _ (by omega) (by omega)]
      · rw [if_neg hc, if_neg hc]

end Yadbf

namespace Yadbf

lemma LoopResult.withPushed_comp (a b : List Record) (r : LoopResult) :
    (r.withPushed b).withPushed a = r.withPushed (a ++ b) := by
  cases r <;> simp [LoopResult.withPushed]

lemma recLoop_append (o : Options) (h : Header) (hn : 0 ≤ h.numberOfBytesInRecord) (d : Bytes) :
    ∀ (fuel t e : Nat) (u : Bytes), loopFuel h t ≤ fuel →
      (∀ p t1 e1 u1, recLoop o h fuel t e u = .done p t1 e1 u1 →
        recLoop o h fuel t e (u ++ d) =
          (recLoop o h (loopFuel h t1) t1 e1 (u1 ++ d)).withPushed p) ∧
      (∀ p t1 e1 u1 err, recLoop o h fuel t e u = .errored p t1 e1 u1 err →
        recLoop o h fuel t e (u ++ d) = .errored p t1 e1 (u1 ++ d) err) := by
  intro fuel
  induction fuel with
  | zero =>
    intro t e u hf
    constructor
    · intro p t1 e1 u1 hdone
      rw [show recLoop o h 0 t e u = .done [] t e u from rfl] at hdone
      injection hdone with hp ht he hu
      subst hp; subst ht; subst he; subst hu
      have hf0 : loopFuel h t = 0 := by omega
      rw [hf0, LoopResult.withPushed_nil]
    · intro p t1 e1 u1 err hberr
      rw [show recLoop o h 0 t e u = .done [] t e u from rfl] at hberr
      exact LoopResult.noConfusion hberr
  | succ n ih =>
    intro t e u hf
    by_cases hc : (hasEnoughBytesForRecord u h && moreRecordsAreExpected t h) = true
    · rcases Bool.and_eq_true .. |>.mp hc with ⟨ha, hb⟩
      have hcd : (hasEnoughBytesForRecord (u ++ d) h && moreRecordsAreExpected t h) = true := by
        refine Bool.and_eq_true .. |>.mpr ⟨?_, hb⟩
        simp only [hasEnoughBytesForRecord, decide_eq_true_eq] at ha ⊢
        rw [List.length_append]
        push_cast
        omega
      have hlen : (h.numberOfBytesInRecord).toNat ≤ u.length := by
        simp only [hasEnoughBytesForRecord, decide_eq_true_eq] at ha
        omega
      have hslice : jsSliceTo (u ++ d) h.numberOfBytesInRecord = jsSliceTo u h.numberOfBytesInRecord := by
        simp only [jsSliceTo, if_neg (not_lt.mpr hn)]
        exact List.take_append_of_le_length hlen
      have hk : (jsSliceTo u h.numberOfBytesInRecord).length ≤ u.length := by
        simp only [jsSliceTo, if_neg (not_lt.mpr hn), List.length_take]
        omega
      have hdrop : (u ++ d).drop (jsSliceTo u h.numberOfBytesInRecord).length =
          u.drop (jsSliceTo u h.numberOfBytesInRecord).length ++ d :=
        List.drop_append_of_le_length hk
      have hm : moreRecordsAreExpected t h = true := hb
      have hfs := loopFuel_succ h t hm
      constructor
      · intro p t1 e1 u1 hdone
        rw [recLoop_succ, if_pos hc] at hdone
        rw [recLoop_succ, if_pos hcd, hslice, hdrop]
        rcases hcv : convertToRecord o.quirks (jsSliceTo u h.numberOfBytesInRecord) h with err | r
        · rw [hcv] at hdone
          exact LoopResult.noConfusion hdone
        · rw [hcv] at hdone
          dsimp only at hdone ⊢
          rcases hrec : recLoop o h n (t + 1)
              (if isEligibleForOutput r o.deleted = true then e + 1 else e)
              (u.drop (jsSliceTo u h.numberOfBytesInRecord).length) with ⟨p1, t2, e2, u2⟩ | ⟨p1, t2, e2, u2, err2⟩
          · rw [hrec] at hdone
            simp only [LoopResult.withPushed] at hdone
            injection hdone with hp ht he hu
            subst hp; subst ht; subst he; subst hu
            rw [(ih (t + 1) _ _ (by omega)).1 p1 t2 e2 u2 hrec]
            rw [LoopResult.withPushed_comp]
          · rw [hrec] at hdone
            simp only [LoopResult.withPushed] at hdone
            exact LoopResult.noConfusion hdone
      · intro p t1 e1 u1 err hberr
        rw [recLoop_succ, if_pos hc] at hberr
        rw [recLoop_succ, if_pos hcd, hslice, hdrop]
        rcases hcv : convertToRecord o.quirks (jsSliceTo u h.numberOfBytesInRecord) h with err2 | r
        · rw [hcv] at hberr
          dsimp only at hberr ⊢
          injection hberr with hp ht he hu herr
          subst hp; subst ht; subst he; subst hu; subst herr
          rfl
        · rw [hcv] at hberr
          dsimp only at hberr ⊢
          rcases hrec : recLoop o h n (t + 1)
              (if isEligibleForOutput r o.deleted = true then e + 1 else e)
              (u.drop (jsSliceTo u h.numberOfBytesInRecord).length) with ⟨p1, t2, e2, u2⟩ | ⟨p1, t2, e2, u2, err2⟩
          · rw [hrec] at hberr
            simp only [LoopResult.withPushed] at hberr
            exact LoopResult.noConfusion hberr
          · rw [hrec] at hberr
            simp only [LoopResult.withPushed] at hberr
            injection hberr with hp ht he hu herr
            subst hp; subst ht; subst he; subst hu; subst herr
            rw [(ih (t + 1) _ _ (by omega)).2 p1 t2 e2 u2 err2 hrec]
            rfl
    · have hcd' : recLoop o h (n + 1) t e u = .done [] t e u := by
        rw [recLoop_succ, if_neg hc]
      constructor
      · intro p t1 e1 u1 hdone
        rw [hcd'] at hdone
        injection hdone with hp ht he hu
        subst hp; subst ht; subst he; subst hu
        rw [LoopResult.withPushed_nil]
        exact recLoop_fuel o h (n + 1) (loopFuel h t) t e (u ++ d) (by omega) (le_refl _)
      · intro p t1 e1 u1 err hberr
        rw [hcd'] at hberr
        exact LoopResult.noConfusion hberr

end Yadbf

namespace Yadbf

lemma readUInt8_append (b d : Bytes) (i : Nat) (hi : i < b.length) :
    readUInt8 (b ++ d) i = readUInt8 b i :=
  List.getD_append _ _ _ _ hi

lemma readUInt16LE_append (b d : Bytes) (i : Nat) (hi : i + 1 < b.length) :
    readUInt16LE (b ++ d) i = readUInt16LE b i := by
  unfold readUInt16LE
  rw [List.getD_append _ _ _ _ (by omega : i < b.length), List.getD_append _ _ _ _ hi]

lemma readUInt32LE_append (b d : Bytes) (i : Nat) (hi : i + 3 < b.length) :
    readUInt32LE (b ++ d) i = readUInt32LE b i := by
  unfold readUInt32LE
  rw [List.getD_append _ _ _ _ (by omega : i < b.length),
    List.getD_append _ _ _ _ (by omega : i + 1 < b.length),
    List.getD_append _ _ _ _ (by omega : i + 2 < b.length),
    List.getD_append _ _ _ _ hi]

lemma readInt16LE_append (b d : Bytes) (i : Nat) (hi : i + 1 < b.length) :
    readInt16LE (b ++ d) i = readInt16LE b i := by
  unfold readInt16LE
  rw [readUInt16LE_append b d i hi]

lemma readInt32LE_append (b d : Bytes) (i : Nat) (hi : i + 3 < b.length) :
    readInt32LE (b ++ d) i = readInt32LE b i := by
  unfold readInt32LE
  rw [readUInt32LE_append b d i hi]

lemma hasEnough_append (p d : Bytes) (hp : hasEnoughBytesForHeader p = true) :
    hasEnoughBytesForHeader (p ++ d) = true := by
  simp only [hasEnoughBytesForHeader, Bool.and_eq_true, decide_eq_true_eq] at hp ⊢
  obtain ⟨h32, hnb⟩ := hp
  rw [readUInt16LE_append p d 8 (by omega)]
  rw [List.length_append]
  omega

lemma parseHeader_append (q : Quirks) (p d : Bytes) (hp : hasEnoughBytesForHeader p = true) :
    parseHeader q (p ++ d) = parseHeader q p := by
  simp only [hasEnoughBytesForHeader, Bool.and_eq_true, decide_eq_true_eq] at hp
  obtain ⟨h32, hnb⟩ := hp
  simp only [parseHeader,
    readUInt8_append p d 0 (by omega), readUInt16LE_append p d 8 (by omega),
    readUInt8_append p d 15 (by omega), readUInt8_append p d 28 (by omega),
    readUInt8_append p d 1 (by omega), readUInt8_append p d 2 (by omega),
    readUInt8_append p d 3 (by omega), readUInt8_append p d 29 (by omega),
    readInt32LE_append p d 4 (by omega), readInt16LE_append p d 10 (by omega),
    List.take_append_of_le_length hnb]

end Yadbf

namespace Yadbf

lemma afterHeader_hEvt (o : Options) (h : Header) (hEvt : Option Header) (buf : Bytes) (t e : Nat) :
    (afterHeader o h hEvt buf t e).headerEvt = hEvt := by
  simp only [afterHeader]
  cases recLoop o h (loopFuel h t) t e buf
  · dsimp only
    split
    · split <;> rfl
    · rfl
  · rfl

lemma afterHeader_live_inv (o : Options) (h : Header) (hEvt : Option Header)
    (u : Bytes) (t0 e0 : Nat)
    (hlive : (afterHeader o h hEvt u t0 e0).ended = false)
    (herr : (afterHeader o h hEvt u t0 e0).errored = none) :
    ∃ p t1 e1 u1, recLoop o h (loopFuel h t0) t0 e0 u = .done p t1 e1 u1 ∧
      (allRecordsHaveBeenProcessed h.numberOfRecords t1 && aSingleByteRemains u1) = false ∧
      afterHeader o h hEvt u t0 e0 = ⟨⟨u1, some h, t1, e1⟩, hEvt, p, false, none⟩ := by
  rcases hL : recLoop o h (loopFuel h t0) t0 e0 u with ⟨p, t1, e1, u1⟩ | ⟨p, t1, e1, u1, err⟩
  · by_cases hend : (allRecordsHaveBeenProcessed h.numberOfRecords t1 && aSingleByteRemains u1) = true
    · exfalso
      simp only [afterHeader, hL] at hlive
      rw [if_pos hend] at hlive
      by_cases hm : firstByteIsEOFMarker u1 = true
      · rw [if_neg (by simp [hm])] at hlive
        exact Bool.noConfusion hlive
      · rw [if_pos (by simp [hm])] at hlive
        exact Bool.noConfusion hlive
    · refine ⟨p, t1, e1, u1, rfl, by simpa using hend, ?_⟩
      simp only [afterHeader, hL]
      rw [if_neg hend]
  · exfalso
    simp only [afterHeader, hL] at herr
    exact Option.noConfusion herr

lemma afterHeader_append_live (o : Options) (h : Header) (hn : 0 ≤ h.numberOfBytesInRecord)
    (hEvt : Option Header) (u b : Bytes) (t0 e0 : Nat) (p : List Record) (t1 e1 : Nat) (u1 : Bytes)
    (hL : recLoop o h (loopFuel h t0) t0 e0 u = .done p t1 e1 u1) :
    afterHeader o h hEvt (u ++ b) t0 e0 =
      ⟨(afterHeader o h none (u1 ++ b) t1 e1).state,
       hEvt,
       p ++ (afterHeader o h none (u1 ++ b) t1 e1).pushed,
       (afterHeader o h none (u1 ++ b) t1 e1).ended,
       (afterHeader o h none (u1 ++ b) t1 e1).errored⟩ := by
  have hLb : recLoop o h (loopFuel h t0) t0 e0 (u ++ b) =
      (recLoop o h (loopFuel h t1) t1 e1 (u1 ++ b)).withPushed p :=
    (recLoop_append o h hn b (loopFuel h t0) t0 e0 u (le_refl _)).1 p t1 e1 u1 hL
  simp only [afterHeader, hLb]
  rcases hL2 : recLoop o h (loopFuel h t1) t1 e1 (u1 ++ b) with ⟨p2, t2, e2, u2⟩ | ⟨p2, t2, e2, u2, err2⟩
  · simp only [LoopResult.withPushed]
    by_cases hend2 : (allRecordsHaveBeenProcessed h.numberOfRecords t2 && aSingleByteRemains u2) = true
    · rw [if_pos hend2, if_pos hend2]
      by_cases hm : firstByteIsEOFMarker u2 = true
      · rw [if_neg (by simp [hm]), if_neg (by simp [hm])]
      · rw [if_pos (by simp [hm]), if_pos (by simp [hm])]
    · rw [if_neg hend2, if_neg hend2]
  · simp only [LoopResult.withPushed]

end Yadbf

namespace Yadbf

lemma parseHeader_ok_nhb (q : Quirks) (buf : Bytes) (hd : Header)
    (hok : parseHeader q buf = .ok hd) : hd.numberOfHeaderBytes = readUInt16LE buf 8 := by
  simp only [parseHeader] at hok
  split at hok
  · exact Except.noConfusion hok
  split at hok
  · exact Except.noConfusion hok
  split at hok
  · exact Except.noConfusion hok
  split at hok
  · exact Except.noConfusion hok
  split at hok
  · exact Except.noConfusion hok
  split at hok
  · exact Except.noConfusion hok
  split at hok
  · exact Except.noConfusion hok
  split at hok
  · exact Except.noConfusion hok
  split at hok
  · exact Except.noConfusion hok
  injection hok with hok
  subst hok
  rfl

lemma transform_some_header (o : Options) (s : DState) (chunk : Bytes) (h : Header)
    (hh : s.header = some h) :
    transform o s chunk =
      afterHeader o h none (s.unconsumed ++ chunk) s.totalRecordCount s.eligibleRecordCount := by
  simp only [transform, hh]

lemma transform_append (o : Options) (s : DState) (a b : Bytes)
    (hnn : ∀ hh : Header, (transform o s a).state.header = some hh → 0 ≤ hh.numberOfBytesInRecord)
    (hlive : (transform o s a).ended = false) (herr : (transform o s a).errored = none) :
    transform o s (a ++ b) =
      ⟨(transform o (transform o s a).state b).state,
       (match (transform o s a).headerEvt with
        | some hh => some hh
        | none => (transform o (transform o s a).state b).headerEvt),
       (transform o s a).pushed ++ (transform o (transform o s a).state b).pushed,
       (transform o (transform o s a).state b).ended,
       (transform o (transform o s a).state b).errored⟩ := by
  rcases hh : s.header with _ | h
  · by_cases hen : hasEnoughBytesForHeader (s.unconsumed ++ a) = true
    · rcases hp : parseHeader o.quirks (s.unconsumed ++ a) with err | hd
      · exfalso
        have : transform o s a =
            ⟨⟨s.unconsumed ++ a, none, s.totalRecordCount, s.eligibleRecordCount⟩,
             none, [], false, some err⟩ := by
          simp only [transform, hh]
          rw [if_neg (by simp [hen]), hp]
        rw [this] at herr
        exact Option.noConfusion herr
      · have ht1 : transform o s a =
            afterHeader o hd (some hd) ((s.unconsumed ++ a).drop hd.numberOfHeaderBytes)
              s.totalRecordCount s.eligibleRecordCount := by
          simp only [transform, hh]
          rw [if_neg (by simp [hen]), hp]
        rw [ht1] at hlive herr hnn
        obtain ⟨p, t1, e1, u1, hL, hend, hres⟩ :=
          afterHeader_live_inv o hd (some hd) _ _ _ hlive herr
        have hnd : 0 ≤ hd.numberOfBytesInRecord := by
          apply hnn hd
          rw [hres]
        have hnhb : hd.numberOfHeaderBytes ≤ (s.unconsumed ++ a).length := by
          rw [parseHeader_ok_nhb o.quirks _ hd hp]
          simp only [hasEnoughBytesForHeader, Bool.and_eq_true, decide_eq_true_eq] at hen
          exact hen.2
        have henb : hasEnoughBytesForHeader ((s.unconsumed ++ a) ++ b) = true :=
          hasEnough_append _ b hen
        have hLHS : transform o s (a ++ b) =
            afterHeader o hd (some hd)
              ((s.unconsumed ++ a).drop hd.numberOfHeaderBytes ++ b)
              s.totalRecordCount s.eligibleRecordCount := by
          have hbuf : s.unconsumed ++ (a ++ b) = (s.unconsumed ++ a) ++ b :=
            (List.append_assoc s.unconsumed a b).symm
          have henb2 : hasEnoughBytesForHeader (s.unconsumed ++ (a ++ b)) = true := by
            rw [hbuf]; exact henb
          simp only [transform, hh]
          rw [hbuf]
          rw [if_neg (by simp [henb2]), parseHeader_append o.quirks _ b hen, hp]
          dsimp only
          rw [List.drop_append_of_le_length hnhb]
        rw [hLHS, ht1, hres]
        rw [afterHeader_append_live o hd hnd (some hd) _ b _ _ p t1 e1 u1 hL]
        rw [transform_some_header o ⟨u1, some hd, t1, e1⟩ b hd rfl]
    · have ht1 : transform o s a =
          ⟨⟨s.unconsumed ++ a, none, s.totalRecordCount, s.eligibleRecordCount⟩,
           none, [], false, none⟩ := by
        simp only [transform, hh]
        rw [if_pos (by simp [hen])]
      rw [ht1]
      have hbuf : s.unconsumed ++ (a ++ b) = (s.unconsumed ++ a) ++ b :=
        (List.append_assoc s.unconsumed a b).symm
      simp only [transform, hh]
      rw [hbuf]
      rfl
  · have ht1 : transform o s a =
        afterHeader o h none (s.unconsumed ++ a) s.totalRecordCount s.eligibleRecordCount :=
      transform_some_header o s a h hh
    rw [ht1] at hlive herr hnn
    obtain ⟨p, t1, e1, u1, hL, hend, hres⟩ :=
      afterHeader_live_inv o h none _ _ _ hlive herr
    have hnd : 0 ≤ h.numberOfBytesInRecord := by
      apply hnn h
      rw [hres]
    have hLHS : transform o s (a ++ b) =
        afterHeader o h none (s.unconsumed ++ a ++ b) s.totalRecordCount s.eligibleRecordCount := by
      rw [transform_some_header o s (a ++ b) h hh, List.append_assoc]
    rw [hLHS, ht1, hres]
    rw [afterHeader_append_live o h hnd none _ b _ _ p t1 e1 u1 hL]
    rw [transform_some_header o ⟨u1, some h, t1, e1⟩ b h rfl]
    dsimp only
    rw [afterHeader_hEvt]

end Yadbf

namespace Yadbf

lemma afterHeader_state_header (o : Options) (h : Header) (hEvt : Option Header)
    (buf : Bytes) (t e : Nat) :
    (afterHeader o h hEvt buf t e).state.header = some h := by
  simp only [afterHeader]
  cases recLoop o h (loopFuel h t) t e buf
  · dsimp only
    split
    · split <;> rfl
    · rfl
  · rfl

lemma afterHeader_live_of_append (o : Options) (h : Header)
    (hnd : 0 ≤ h.numberOfBytesInRecord) (hEvt : Option Header) (u b : Bytes)
    (t0 e0 : Nat) (hb : b ≠ [])
    (herr : (afterHeader o h hEvt (u ++ b) t0 e0).errored = none)
    (hend : (afterHeader o h hEvt (u ++ b) t0 e0).ended = true) :
    (afterHeader o h hEvt u t0 e0).ended = false ∧
    (afterHeader o h hEvt u t0 e0).errored = none := by
  rcases hL : recLoop o h (loopFuel h t0) t0 e0 u with ⟨p, t1, e1, u1⟩ | ⟨p, t1, e1, u1, err⟩
  · by_cases hend1 : (allRecordsHaveBeenProcessed h.numberOfRecords t1 && aSingleByteRemains u1) = true
    · exfalso
      rcases Bool.and_eq_true .. |>.mp hend1 with ⟨hall, hsingle⟩
      simp only [allRecordsHaveBeenProcessed, decide_eq_true_eq] at hall
      simp only [aSingleByteRemains, decide_eq_true_eq] at hsingle
      have hLb := (recLoop_append o h hnd b (loopFuel h t0) t0 e0 u (le_refl _)).1 p t1 e1 u1 hL
      have hf0 : loopFuel h t1 = 0 := by simp only [loopFuel]; omega
      rw [hf0, show recLoop o h 0 t1 e1 (u1 ++ b) = .done [] t1 e1 (u1 ++ b) from rfl] at hLb
      simp only [LoopResult.withPushed, List.append_nil] at hLb
      have hbl : b.length ≠ 0 := fun hc => hb (List.length_eq_zero.mp hc)
      have hsb : aSingleByteRemains (u1 ++ b) = false := by
        simp only [aSingleByteRemains, List.length_append, hsingle, decide_eq_false_iff_not]
        omega
      simp only [afterHeader, hLb, hsb, Bool.and_false, Bool.false_eq_true, if_false] at hend
    · have : afterHeader o h hEvt u t0 e0 = ⟨⟨u1, some h, t1, e1⟩, hEvt, p, false, none⟩ := by
        simp only [afterHeader, hL]
        rw [if_neg hend1]
      rw [this]
      exact ⟨rfl, rfl⟩
  · exfalso
    have hLb := (recLoop_append o h hnd b (loopFuel h t0) t0 e0 u (le_refl _)).2 p t1 e1 u1 err hL
    simp only [afterHeader, hLb] at herr
    exact Option.noConfusion herr

lemma transform_live_of_append (o : Options) (s : DState) (a b : Bytes) (hb : b ≠ [])
    (hnn : ∀ hh : Header, (transform o s (a ++ b)).state.header = some hh →
      0 ≤ hh.numberOfBytesInRecord)
    (herr : (transform o s (a ++ b)).errored = none)
    (hend : (transform o s (a ++ b)).ended = true) :
    (transform o s a).ended = false ∧ (transform o s a).errored = none := by
  rcases hh : s.header with _ | h
  · by_cases hen : hasEnoughBytesForHeader (s.unconsumed ++ a) = true
    · rcases hp : parseHeader o.quirks (s.unconsumed ++ a) with err | hd
      · exfalso
        have hbuf : s.unconsumed ++ (a ++ b) = (s.unconsumed ++ a) ++ b :=
          (List.append_assoc s.unconsumed a b).symm
        have henb2 : hasEnoughBytesForHeader (s.unconsumed ++ (a ++ b)) = true := by
          rw [hbuf]; exact hasEnough_append _ b hen
        have hF : transform o s (a ++ b) =
            ⟨⟨s.unconsumed ++ (a ++ b), none, s.totalRecordCount, s.eligibleRecordCount⟩,
             none, [], false, some err⟩ := by
          simp only [transform, hh]
          rw [if_neg (by simp [henb2]), hbuf, parseHeader_append o.quirks _ b hen, hp]
        rw [hF] at herr
        exact Option.noConfusion herr
      · have hnhb : hd.numberOfHeaderBytes ≤ (s.unconsumed ++ a).length := by
          rw [parseHeader_ok_nhb o.quirks _ hd hp]
          simp only [hasEnoughBytesForHeader, Bool.and_eq_true, decide_eq_true_eq] at hen
          exact hen.2
        have hbuf : s.unconsumed ++ (a ++ b) = (s.unconsumed ++ a) ++ b :=
          (List.append_assoc s.unconsumed a b).symm
        have henb2 : hasEnoughBytesForHeader (s.unconsumed ++ (a ++ b)) = true := by
          rw [hbuf]; exact hasEnough_append _ b hen
        have hF : transform o s (a ++ b) =
            afterHeader o hd (some hd)
              ((s.unconsumed ++ a).drop hd.numberOfHeaderBytes ++ b)
              s.totalRecordCount s.eligibleRecordCount := by
          simp only [transform, hh]
          rw [hbuf]
          rw [if_neg (by simp [henb2]), parseHeader_append o.quirks _ b hen, hp]
          dsimp only
          rw [List.drop_append_of_le_length hnhb]
        have hnd : 0 ≤ hd.numberOfBytesInRecord := by
          apply hnn hd
          rw [hF, afterHeader_state_header]
        rw [hF] at herr hend
        have ht1 : transform o s a =
            afterHeader o hd (some hd) ((s.unconsumed ++ a).drop hd.numberOfHeaderBytes)
              s.totalRecordCount s.eligibleRecordCount := by
          simp only [transform, hh]
          rw [if_neg (by simp [hen]), hp]
        rw [ht1]
        exact afterHeader_live_of_append o hd hnd (some hd) _ b _ _ hb herr hend
    · have ht1 : transform o s a =
          ⟨⟨s.unconsumed ++ a, none, s.totalRecordCount, s.eligibleRecordCount⟩,
           none, [], false, none⟩ := by
        simp only [transform, hh]
        rw [if_pos (by simp [hen])]
      rw [ht1]
      exact ⟨rfl, rfl⟩
  · have hF : transform o s (a ++ b) =
        afterHeader o h none (s.unconsumed ++ a ++ b) s.totalRecordCount s.eligibleRecordCount := by
      rw [transform_some_header o s (a ++ b) h hh, List.append_assoc]
    have hnd : 0 ≤ h.numberOfBytesInRecord := by
      apply hnn h
      rw [hF, afterHeader_state_header]
    rw [hF] at herr hend
    rw [transform_some_header o s a h hh]
    exact afterHeader_live_of_append o h hnd none _ b _ _ hb herr hend

end Yadbf

namespace Yadbf

lemma transform_state_header_mono (o : Options) (s : DState) (c d : Bytes)
    (hlv2 : (transform o s c).errored = none) :
    ∀ hh : Header, (transform o s c).state.header = some hh →
      (transform o s (c ++ d)).state.header = some hh := by
  intro hh hsome
  rcases hsh : s.header with _ | h
  · by_cases hen : hasEnoughBytesForHeader (s.unconsumed ++ c) = true
    · rcases hp : parseHeader o.quirks (s.unconsumed ++ c) with err | hd
      · exfalso
        have hr : transform o s c =
            ⟨⟨s.unconsumed ++ c, none, s.totalRecordCount, s.eligibleRecordCount⟩,
             none, [], false, some err⟩ := by
          simp only [transform, hsh]
          rw [if_neg (by simp [hen]), hp]
        rw [hr] at hlv2
        exact Option.noConfusion hlv2
      · have hr : transform o s c =
            afterHeader o hd (some hd) ((s.unconsumed ++ c).drop hd.numberOfHeaderBytes)
              s.totalRecordCount s.eligibleRecordCount := by
          simp only [transform, hsh]
          rw [if_neg (by simp [hen]), hp]
        have hdh : hh = hd := by
          rw [hr, afterHeader_state_header] at hsome
          exact (Option.some.injEq .. |>.mp hsome).symm
        subst hdh
        have hnhb : hh.numberOfHeaderBytes ≤ (s.unconsumed ++ c).length := by
          rw [parseHeader_ok_nhb o.quirks _ hh hp]
          simp only [hasEnoughBytesForHeader, Bool.and_eq_true, decide_eq_true_eq] at hen
          exact hen.2
        have hbuf : s.unconsumed ++ (c ++ d) = (s.unconsumed ++ c) ++ d :=
          (List.append_assoc s.unconsumed c d).symm
        have henb2 : hasEnoughBytesForHeader (s.unconsumed ++ (c ++ d)) = true := by
          rw [hbuf]; exact hasEnough_append _ d hen
        have hF : transform o s (c ++ d) =
            afterHeader o hh (some hh)
              ((s.unconsumed ++ c).drop hh.numberOfHeaderBytes ++ d)
              s.totalRecordCount s.eligibleRecordCount := by
          simp only [transform, hsh]
          rw [hbuf]
          rw [if_neg (by simp [henb2]), parseHeader_append o.quirks _ d hen, hp]
          dsimp only
          rw [List.drop_append_of_le_length hnhb]
        rw [hF, afterHeader_state_header]
    · exfalso
      have hr : transform o s c =
          ⟨⟨s.unconsumed ++ c, none, s.totalRecordCount, s.eligibleRecordCount⟩,
           none, [], false, none⟩ := by
        simp only [transform, hsh]
        rw [if_pos (by simp [hen])]
      rw [hr] at hsome
      exact Option.noConfusion hsome
  · have hdh : hh = h := by
      rw [transform_some_header o s c h hsh, afterHeader_state_header] at hsome
      exact (Option.some.injEq .. |>.mp hsome).symm
    subst hdh
    rw [transform_some_header o s (c ++ d) hh hsh, afterHeader_state_header]

lemma seqFeed_join (o : Options) :
    ∀ (cs : List Bytes) (s : DState), cs ≠ [] → (∀ c ∈ cs, c ≠ []) →
      (∀ hh : Header, (transform o s cs.flatten).state.header = some hh →
        0 ≤ hh.numberOfBytesInRecord) →
      (transform o s cs.flatten).errored = none →
      (transform o s cs.flatten).ended = true →
      seqFeed o s cs = ⟨(transform o s cs.flatten).headerEvt, (transform o s cs.flatten).pushed,
        true, none, (transform o s cs.flatten).state⟩ := by
  intro cs
  induction cs with
  | nil => intro s hne _ _ _ _; exact absurd rfl hne
  | cons c cs ih =>
    intro s _ hnempty hnn herr hend
    by_cases hcs : cs = []
    · subst hcs
      have hj : List.flatten [c] = c := by simp
      rw [hj] at hnn herr hend
      simp only [seqFeed, hj]
      rw [if_pos (by rw [hend]; rfl)]
      rw [hend, herr]
    · have hjoin1 : List.flatten (c :: cs) = c ++ cs.flatten := by simp
      rw [hjoin1] at hnn herr hend
      have hbne : cs.flatten ≠ [] := by
        obtain ⟨c2, cs2, rfl⟩ : ∃ c2 cs2, cs = c2 :: cs2 := by
          cases cs with
          | nil => exact absurd rfl hcs
          | cons x xs => exact ⟨x, xs, rfl⟩
        have hc2 : c2 ≠ [] := hnempty c2 (by simp)
        simp only [List.flatten_cons, ne_eq, List.append_eq_nil]
        intro hq
        exact hc2 hq.1
      have hlive := transform_live_of_append o s c cs.flatten hbne hnn herr hend
      have hnn1 : ∀ hh : Header, (transform o s c).state.header = some hh →
          0 ≤ hh.numberOfBytesInRecord := by
        intro hh hhh
        exact hnn hh (transform_state_header_mono o s c cs.flatten hlive.2 hh hhh)
      have hcomp := transform_append o s c cs.flatten hnn1 hlive.1 hlive.2
      have hF2 : (transform o s (c ++ cs.flatten)).state =
          (transform o (transform o s c).state cs.flatten).state := by rw [hcomp]
      have herr2 : (transform o (transform o s c).state cs.flatten).errored = none := by
        rw [hcomp] at herr
        exact herr
      have hend2 : (transform o (transform o s c).state cs.flatten).ended = true := by
        rw [hcomp] at hend
        exact hend
      have hnn2 : ∀ hh : Header,
          (transform o (transform o s c).state cs.flatten).state.header = some hh →
          0 ≤ hh.numberOfBytesInRecord := by
        intro hh hhh
        exact hnn hh (by rw [hF2]; exact hhh)
      have hnempty2 : ∀ c2 ∈ cs, c2 ≠ [] := fun x hx => hnempty x (List.mem_cons_of_mem _ hx)
      have hrest := ih (transform o s c).state hcs hnempty2 hnn2 herr2 hend2
      rw [hjoin1]
      simp only [seqFeed]
      rw [if_neg (by simp [hlive.1, hlive.2])]
      rw [hrest, hcomp]
end Yadbf

namespace Yadbf

lemma transform_state_header_eq_evt (o : Options) (s : DState) (chunk : Bytes)
    (hh : s.header = none) :
    (transform o s chunk).state.header = (transform o s chunk).headerEvt := by
  simp only [transform, hh]
  by_cases hen : hasEnoughBytesForHeader (s.unconsumed ++ chunk) = true
  · rw [if_neg (by simp [hen])]
    rcases hp : parseHeader o.quirks (s.unconsumed ++ chunk) with err | hd
    · rfl
    · rw [afterHeader_state_header, afterHeader_hEvt]
  · rw [if_pos (by simp [hen])]

/-- C1 (amended): for every complete byte sequence that decodes successfully
in one chunk and whose parsed header declares a non-negative
numberOfBytesInRecord, feeding any partition of that sequence into nonempty
chunks through the transform step yields exactly the same run — the same
header event, the same records in the same order, the same clean end of
stream. (The non-negativity proviso is forced: with a negative declared
record size, record framing depends on chunk boundaries.) -/
theorem C1_chunking_invariance (o : Options) (input : Bytes) (cs : List Bytes)
    (hjoin : cs.flatten = input) (hne : ∀ c ∈ cs, c ≠ [])
    (herr : (runChunks o [input]).errored = none)
    (hend : (runChunks o [input]).ended = true)
    (hn : ∀ hh : Header, (runChunks o [input]).header = some hh →
      0 ≤ hh.numberOfBytesInRecord) :
    runChunks o cs = runChunks o [input] := by
  subst hjoin
  rw [runChunks_single] at herr hend hn ⊢
  have herr1 : (transform o initState cs.flatten).errored = none := herr
  have hend1 : (transform o initState cs.flatten).ended = true := hend
  have hn1 : ∀ hh : Header, (transform o initState cs.flatten).state.header = some hh →
      0 ≤ hh.numberOfBytesInRecord := by
    intro hh h2
    apply hn hh
    show (transform o initState cs.flatten).headerEvt = some hh
    rw [← transform_state_header_eq_evt o initState cs.flatten rfl]
    exact h2
  have hcs : cs ≠ [] := by
    intro hq
    subst hq
    have hz : transform o initState (List.flatten ([] : List Bytes)) =
        ⟨⟨[], none, 0, 0⟩, none, [], false, none⟩ := rfl
    rw [hz] at hend1
    exact Bool.noConfusion hend1
  rw [hend1, herr1]
  show runChunks o cs = _
  simp only [runChunks]
  exact seqFeed_join o cs initState hcs hne hn1 herr1 hend1

end Yadbf


namespace Yadbf

/-- C1 counterexample: fileNeg decodes successfully as a single chunk (header,
one record, clean end of stream), yet splitting the same bytes into two
nonempty chunks makes the decoder destroy with an error and emit nothing: with
a negative declared record size, Buffer.slice(0, -1) frames the record from
however many bytes happen to be buffered, so chunk boundaries change the
outcome and the claim fails as stated. -/
theorem C1_chunking_counterexample :
    (runChunks {} [fileNeg]).ended = true ∧
    (runChunks {} [fileNeg]).errored = none ∧
    (runChunks {} [fileNeg]).records = [⟨false, [("A", .str "A")]⟩] ∧
    (fileNeg.take 66) ++ (fileNeg.drop 66) = fileNeg ∧
    fileNeg.take 66 ≠ [] ∧ fileNeg.drop 66 ≠ [] ∧
    (runChunks {} [fileNeg.take 66, fileNeg.drop 66]).records = [] ∧
    (runChunks {} [fileNeg.take 66, fileNeg.drop 66]).ended = false ∧
    (runChunks {} [fileNeg.take 66, fileNeg.drop 66]).errored ≠ none ∧
    runChunks {} [fileNeg.take 66, fileNeg.drop 66] ≠ runChunks {} [fileNeg] := by
  decide

/-- Witness for C1 as amended: splitting the three-record file after byte 40
yields the same run as the whole file in one chunk. -/
theorem C1_chunking_invariance_witness :
    runChunks {} [c3file.take 40, c3file.drop 40] = runChunks {} [c3file] :=
  C1_chunking_invariance {} c3file [c3file.take 40, c3file.drop 40]
    (by decide) (by decide) (by decide) (by decide)
    (fun hh h2 => by
      have hx : (runChunks ({} : Options) [c3file]).header = some c3hdr := by decide
      rw [hx] at h2
      injection h2 with h3
      rw [← h3]
      decide)

end Yadbf
